import Mathlib

/-!
Shallow embedding of the `raps` repository (files `capture_faces.py` and
`camera_stream.py`): the SQLite `captures` table is a list of rows, HTTP
responses and camera hardware are explicit oracles, float ratios and
wall-clock timestamps are exact rationals, and Python `int` truncation of a
nonnegative product is Nat floor division.
-/

namespace Raps

/-- A row of the SQLite `captures` table
(`id INTEGER PRIMARY KEY AUTOINCREMENT, date, time, image_base64`). -/
structure Row where
  id : Nat
  date : String
  time : String
  image_base64 : String
deriving DecidableEq, Repr

/-- AUTOINCREMENT primary key: modelled as one more than the maximum id
currently in the table. -/
def nextId (tbl : List Row) : Nat := (tbl.map Row.id).foldr max 0 + 1

/-- Model of `save_capture` (capture_faces.py lines 39-50, camera_stream.py
lines 62-74): INSERT one row holding the current date and time strings and
the base64 payload.  The wall-clock strings are parameters of the
embedding. -/
def save_capture (tbl : List Row) (date_str time_str image_b64 : String) : List Row :=
  tbl ++ [{ id := nextId tbl, date := date_str, time := time_str, image_base64 := image_b64 }]

/-- A face rectangle (x, y, w, h) as produced by `detectMultiScale`. -/
structure Rect where
  x : Nat
  y : Nat
  w : Nat
  h : Nat
deriving DecidableEq, Repr

/-- Pixel area of a face rectangle, the key `lambda r: r[2] * r[3]`. -/
def area (r : Rect) : Nat := r.w * r.h

/-- Python `max(f :: rest, key=area)`: fold keeping the current maximum and
replacing it only on a strictly larger key, so the first maximal element
wins ties. -/
def py_max_by_area (f : Rect) (rest : List Rect) : Rect :=
  rest.foldl (fun cur r => if area cur < area r then r else cur) f

/-- Model of `get_biggest_face` from capture_faces.py (lines 53-58):
`max(faces, key=lambda r: r[2] * r[3])` on a nonempty list, `None`
otherwise. -/
def get_biggest_face_cf (faces : List Rect) : Option Rect :=
  match faces with
  | [] => none
  | f :: rest => some (py_max_by_area f rest)

/-- Python `max(a :: l)` on a nonempty list of numbers. -/
def py_list_max (a : Nat) (l : List Nat) : Nat := l.foldl max a

/-- Model of `get_biggest_face` from camera_stream.py (lines 76-82):
`areas = [w*h for ...]; max_idx = areas.index(max(areas)); faces[max_idx]`.
Python `list.index` returns the first occurrence; the `getD` default is
never reached because the index is always in range. -/
def get_biggest_face_cs (faces : List Rect) : Option Rect :=
  match faces with
  | [] => none
  | f :: rest =>
      let areas := area f :: rest.map area
      let m := py_list_max (area f) (rest.map area)
      some ((f :: rest).getD (areas.indexOf m) f)

/-- Model of `crop_with_margin` from capture_faces.py (lines 61-69): a single
pad `int(max(fw, fh) * margin_ratio)` applied on both axes.  The float
`margin_ratio` is the exact nonnegative rational `mnum / mden`, and `int`
truncation of the nonnegative product is Nat floor division.  Returns the
slice bounds (x1, y1, x2, y2) of `img[y1:y2, x1:x2]`. -/
def crop_with_margin_cf (H W : Nat) (r : Rect) (mnum mden : Nat) :
    Int × Int × Int × Int :=
  let pad : Int := ((max r.w r.h * mnum) / mden : Nat)
  let x1 := max 0 ((r.x : Int) - pad)
  let y1 := max 0 ((r.y : Int) - pad)
  let x2 := min (W : Int) ((r.x : Int) + r.w + pad)
  let y2 := min (H : Int) ((r.y : Int) + r.h + pad)
  (x1, y1, x2, y2)

/-- Model of `crop_with_margin` from camera_stream.py (lines 84-93): separate
pads `int(w * margin_ratio)` and `int(h * margin_ratio)` per axis, with the
same rational encoding of `margin_ratio` as `crop_with_margin_cf`. -/
def crop_with_margin_cs (H W : Nat) (r : Rect) (mnum mden : Nat) :
    Int × Int × Int × Int :=
  let margin_w : Int := ((r.w * mnum) / mden : Nat)
  let margin_h : Int := ((r.h * mnum) / mden : Nat)
  let x1 := max 0 ((r.x : Int) - margin_w)
  let y1 := max 0 ((r.y : Int) - margin_h)
  let x2 := min (W : Int) ((r.x : Int) + r.w + margin_w)
  let y2 := min (H : Int) ((r.y : Int) + r.h + margin_h)
  (x1, y1, x2, y2)

/-- Model of `_fetch_pending`: SELECT the first `lim` rows of the table. -/
def fetch_pending (tbl : List Row) (lim : Nat) : List Row := tbl.take lim

/-- Model of `_delete_local`: DELETE FROM captures WHERE id IN ids. -/
def delete_local (tbl : List Row) (ids : List Nat) : List Row :=
  tbl.filter (fun r => !(decide (r.id ∈ ids)))

/-- Success test of capture_faces.py sync: `200 <= status_code < 300`. -/
def is2xx (s : Nat) : Bool := decide (200 ≤ s) && decide (s < 300)

/-- Success test of camera_stream.py sync: `status_code in [200, 201]`. -/
def is_200_or_201 (s : Nat) : Bool := s == 200 || s == 201

/-- Model of `sync_supabase` from capture_faces.py (lines 238-299).  The HTTP
layer is an oracle: `batch_resp` is the batch POST outcome (`none` for a
raised exception, `some s` for status `s`) and `indiv_resp i` the outcome of
the individual POST for the i-th pending row.  The batch exception is caught
and falls through to the individual phase; each individual POST is wrapped
in its own try, and each success deletes exactly that row. -/
def sync_supabase_cf (supabase_url anon_key : String) (tbl : List Row)
    (max_batch : Nat) (batch_resp : Option Nat) (indiv_resp : Nat → Option Nat) :
    List Row :=
  if supabase_url.isEmpty || anon_key.isEmpty then tbl
  else if (fetch_pending tbl max_batch).isEmpty then tbl
  else if (batch_resp.map is2xx).getD false then
    delete_local tbl ((fetch_pending tbl max_batch).map Row.id)
  else
    delete_local tbl ((List.range (fetch_pending tbl max_batch).length).filterMap (fun i =>
      match indiv_resp i with
      | some s => if is2xx s then ((fetch_pending tbl max_batch).get? i).map Row.id else none
      | none => none))

/-- Model of `sync_supabase` from camera_stream.py (lines 123-178).  The whole
body sits in one try/except, so a raised batch POST (`batch_resp = none`) or
any raised individual POST aborts the function before any deletion; on a
non-2xx batch status the individual phase deletes exactly the rows whose
individual POST returned 200 or 201. -/
def sync_supabase_cs (supabase_url anon_key : String) (tbl : List Row)
    (max_batch : Nat) (batch_resp : Option Nat) (indiv_resp : Nat → Option Nat) :
    List Row :=
  if supabase_url.isEmpty || anon_key.isEmpty then tbl
  else if (fetch_pending tbl max_batch).isEmpty then tbl
  else
    match batch_resp with
    | none => tbl
    | some s =>
      if is_200_or_201 s then
        delete_local tbl ((fetch_pending tbl max_batch).map Row.id)
      else if (List.range (fetch_pending tbl max_batch).length).any
          (fun i => (indiv_resp i).isNone) then tbl
      else
        delete_local tbl
          ((List.range (fetch_pending tbl max_batch).length).filterMap (fun i =>
            match indiv_resp i with
            | some st =>
                if is_200_or_201 st then ((fetch_pending tbl max_batch).get? i).map Row.id
                else none
            | none => none))

/-- OpenCV capture API codes used by capture_faces.py. -/
def CAP_ANY : Nat := 0

def CAP_V4L2 : Nat := 200

def CAP_DSHOW : Nat := 700

def CAP_MSMF : Nat := 1400

/-- API preference list of `try_open_camera` (capture_faces.py lines
135-140), keyed on the detected platform. -/
def api_prefs (is_windows : Bool) : List Nat :=
  if is_windows then [CAP_DSHOW, CAP_MSMF, CAP_ANY] else [CAP_V4L2, CAP_ANY]

/-- Device indices probed by `try_open_camera` (line 142). -/
def cam_indices : List Nat := [0, 1, 2]

/-- Hardware oracle for one call of `try_open_camera`: whether
`cv2.VideoCapture(idx, api)` opens and whether `cap.read()` then succeeds.
The api argument `none` is the API-unspecified constructor
`cv2.VideoCapture(idx)`. -/
structure CamEnv where
  opens : Option Nat → Nat → Bool
  reads : Option Nat → Nat → Bool

/-- An opened capture handle, identified by the (api, index) that opened it. -/
abbrev Cap := Option Nat × Nat

/-- Scan a list of (api, index) pairs, one `VideoCapture` construction per
pair, returning the first pair that opens and reads together with the number
of constructions performed. -/
def scan_pairs (env : CamEnv) : List Cap → Option Cap × Nat
  | [] => (none, 0)
  | p :: rest =>
      if env.opens p.1 p.2 && env.reads p.1 p.2 then (some p, 1)
      else
        let r := scan_pairs env rest
        (r.1, r.2 + 1)

/-- Model of `try_open_camera` (capture_faces.py lines 129-179): probe every
preferred API crossed with indices [0, 1, 2]; if all fail, one
API-unspecified pass over the indices.  Returns the opened handle (or
`none`) and the number of `VideoCapture` constructions performed. -/
def try_open_camera (is_windows : Bool) (env : CamEnv) : Option Cap × Nat :=
  let phase1 := (api_prefs is_windows).flatMap
    (fun a => cam_indices.map (fun i => ((some a : Option Nat), i)))
  let r1 := scan_pairs env phase1
  match r1.1 with
  | some c => (some c, r1.2)
  | none =>
      let r2 := scan_pairs env (cam_indices.map (fun i => ((none : Option Nat), i)))
      (r2.1, r1.2 + r2.2)

/-- Pre-attempt stabilization delay of `try_open_camera_with_retries`
(capture_faces.py line 201): `3.0 if attempt == 0 else base_delay + attempt * 3`. -/
def retry_delay (base_delay : ℚ) (attempt : Nat) : ℚ :=
  if attempt = 0 then 3 else base_delay + attempt * 3

/-- Inter-attempt wait of `try_open_camera_with_retries` (line 208):
`base_delay + attempt * 2`. -/
def wait_time_formula (base_delay : ℚ) (attempt : Nat) : ℚ := base_delay + attempt * 2

/-- The retry loop of `try_open_camera_with_retries` (lines 193-213), by
fuel on the remaining attempts.  `envs k` is the hardware state during outer
attempt `k`.  Returns the result, the total number of `VideoCapture`
constructions, and the number of outer attempts actually made. -/
def retries_go (is_windows : Bool) (envs : Nat → CamEnv) :
    Nat → Nat → Option Cap × Nat × Nat
  | _, 0 => (none, 0, 0)
  | attempt, rem + 1 =>
      let r := try_open_camera is_windows (envs attempt)
      match r.1 with
      | some c => (some c, r.2, 1)
      | none =>
          let rest := retries_go is_windows envs (attempt + 1) rem
          (rest.1, r.2 + rest.2.1, 1 + rest.2.2)

/-- Model of `try_open_camera_with_retries` (capture_faces.py lines 191-213). -/
def try_open_camera_with_retries (is_windows : Bool) (envs : Nat → CamEnv)
    (max_retries : Nat) : Option Cap × Nat × Nat :=
  retries_go is_windows envs 0 max_retries

/-- Reconnection threshold of the frame-reading loop (capture_faces.py line 371). -/
def max_failures : Nat := 10

/-- One iteration of the failure handling in capture_faces.py `main` (lines
374-401), restricted to the `consecutive_failures` counter: a successful
read resets it to 0; a failed read increments it, and when it reaches
`max_failures` a reconnection is attempted and the counter is reset to 0
whether the reconnection succeeded (`recon_ok = true`) or not.  Returns the
new counter and whether a reconnection was attempted. -/
def failure_step (cf : Nat) (read_ok recon_ok : Bool) : Nat × Bool :=
  if read_ok then (0, false)
  else
    let cf2 := cf + 1
    if max_failures ≤ cf2 then
      if recon_ok then (0, true) else (0, true)
    else (cf2, false)

/-- The counter after running the loop from its initial value 0 over a trace
of (read_ok, recon_ok) events. -/
def cf_run (events : List (Bool × Bool)) : Nat :=
  events.foldl (fun cf e => (failure_step cf e.1 e.2).1) 0

/-- Cooldown between saved captures (capture_faces.py line 362,
camera_stream.py line 40). -/
def cooldown_seconds : ℚ := 3

/-- One iteration of the save decision in capture_faces.py `main` (lines
413-419): `t` is the iteration's wall-clock time, `faces_found` whether the
detector returned at least one face, `encode_ok` whether the body of the
try block (JPEG encode and INSERT) succeeds.  Returns the new
`last_saved_ts` and whether a capture was saved. -/
def save_step_cf (last_saved t : ℚ) (faces_found encode_ok : Bool) : ℚ × Bool :=
  if faces_found && decide (cooldown_seconds ≤ t - last_saved) then
    if encode_ok then (t, true) else (last_saved, false)
  else (last_saved, false)

/-- One iteration of the save decision in camera_stream.py `capture_frames`
(lines 316-328); the guard and the update of `last_saved_ts` are the same
as in capture_faces.py. -/
def save_step_cs (last_saved t : ℚ) (faces_found encode_ok : Bool) : ℚ × Bool :=
  if faces_found && decide (cooldown_seconds ≤ t - last_saved) then
    if encode_ok then (t, true) else (last_saved, false)
  else (last_saved, false)

/-- Times at which capture_faces.py `main` saves a face, over a trace of
iterations (time, faces_found, encode_ok), starting from a given
`last_saved_ts`. -/
def save_times_cf (last_saved : ℚ) : List (ℚ × Bool × Bool) → List ℚ
  | [] => []
  | e :: rest =>
      let s := save_step_cf last_saved e.1 e.2.1 e.2.2
      if s.2 then e.1 :: save_times_cf s.1 rest else save_times_cf s.1 rest

/-- Times at which camera_stream.py `capture_frames` saves a face. -/
def save_times_cs (last_saved : ℚ) : List (ℚ × Bool × Bool) → List ℚ
  | [] => []
  | e :: rest =>
      let s := save_step_cs last_saved e.1 e.2.1 e.2.2
      if s.2 then e.1 :: save_times_cs s.1 rest else save_times_cs s.1 rest

/-- Result of one Python statement sequence: a value or a raised exception. -/
inductive PyResult (α : Type) where
  | ok : α → PyResult α
  | exn : String → PyResult α
deriving DecidableEq, Repr

/-- An opaque camera frame (`numpy` array handle). -/
abbrev Frame := Nat

/-- MJPEG part header emitted by `generate_frames` (camera_stream.py line 370). -/
def mjpeg_head : String := "--frame\r\nContent-Type: image/jpeg\r\n\r\n"

/-- MJPEG part trailer (line 371). -/
def mjpeg_tail : String := "\r\n"

/-- The byte string yielded by `generate_frames` for one encoded frame. -/
def mjpeg_chunk (jpeg : String) : String := mjpeg_head ++ jpeg ++ mjpeg_tail

/-- Well-formedness of one yielded MJPEG part: header, then the JPEG bytes,
then the trailer. -/
def is_mjpeg_part (s : String) : Prop := ∃ jpeg, s = mjpeg_head ++ jpeg ++ mjpeg_tail

/-- Every chunk that a loop iteration actually yields is a well-formed MJPEG
part; iterations that yield nothing or raise are unconstrained. -/
def chunk_ok : PyResult (Option String) → Prop
  | .ok (some s) => is_mjpeg_part s
  | _ => True

/-- Model of one iteration of `generate_frames` (camera_stream.py lines
350-373).  `latest` is `latest_frame`; when it is `None` the code reads a
data-URL path with `cv2.imread` (outcome `imread_res`, `none` in practice
since the path is not a file) and then calls `cv2.zeros(...)` with
`dtype=cv2.uint8` — attributes that do not exist on the cv2 module, so that
branch raises AttributeError.  `put_text` stamps the timestamp `ts` on the
frame; `enc` is `cv2.imencode`, returning the success flag and the JPEG
bytes; on `ret = False` nothing is yielded this iteration. -/
def generate_frames_body (latest : Option Frame) (imread_res : Option Frame)
    (put_text : Frame → String → Frame) (ts : String)
    (enc : Frame → Bool × String) : PyResult (Option String) :=
  match latest with
  | some f =>
      let r := enc (put_text f ts)
      if r.1 then .ok (some (mjpeg_chunk r.2)) else .ok none
  | none =>
      match imread_res with
      | some f =>
          let r := enc (put_text f ts)
          if r.1 then .ok (some (mjpeg_chunk r.2)) else .ok none
      | none => .exn "AttributeError: module cv2 has no attribute zeros"

/-! Helper lemmas shared between the claim theorems. -/

theorem failure_step_fst_lt (cf : Nat) (r rec : Bool) (h : cf < max_failures) :
    (failure_step cf r rec).1 < max_failures := by
  simp only [failure_step, max_failures] at h ⊢
  split
  · simp
  · split
    · split <;> simp
    · simp
      omega

theorem scan_pairs_count_le (env : CamEnv) (l : List Cap) :
    (scan_pairs env l).2 ≤ l.length := by
  induction l with
  | nil => simp [scan_pairs]
  | cons p rest ih =>
      simp only [scan_pairs, List.length_cons]
      split
      · omega
      · omega

theorem scan_pairs_sound (env : CamEnv) (l : List Cap) (c : Cap) :
    (scan_pairs env l).1 = some c →
    c ∈ l ∧ env.opens c.1 c.2 = true ∧ env.reads c.1 c.2 = true := by
  induction l with
  | nil => intro h; simp [scan_pairs] at h
  | cons p rest ih =>
      intro h
      simp only [scan_pairs] at h
      by_cases hc : (env.opens p.1 p.2 && env.reads p.1 p.2) = true
      · rw [if_pos hc] at h
        simp only [Option.some.injEq] at h
        subst h
        rw [Bool.and_eq_true] at hc
        exact ⟨List.mem_cons_self _ _, hc.1, hc.2⟩
      · rw [if_neg hc] at h
        rcases ih h with ⟨hm, ho, hr⟩
        exact ⟨List.mem_cons_of_mem _ hm, ho, hr⟩

theorem phase1_length (w : Bool) :
    ((api_prefs w).flatMap
      (fun a => cam_indices.map (fun i => ((some a : Option Nat), i)))).length =
    (api_prefs w).length * 3 := by
  rcases w with _ | _ <;> rfl

theorem try_open_camera_count_le (w : Bool) (env : CamEnv) :
    (try_open_camera w env).2 ≤ (api_prefs w).length * 3 + 3 := by
  unfold try_open_camera
  have hb := scan_pairs_count_le env ((api_prefs w).flatMap
    (fun a => cam_indices.map (fun i => ((some a : Option Nat), i))))
  rw [phase1_length w] at hb
  have hb2 := scan_pairs_count_le env (cam_indices.map (fun i => ((none : Option Nat), i)))
  have hl2 : (cam_indices.map (fun i => ((none : Option Nat), i))).length = 3 := rfl
  rw [hl2] at hb2
  rcases hc : (scan_pairs env ((api_prefs w).flatMap
      (fun a => cam_indices.map (fun i => ((some a : Option Nat), i))))).1 with _ | c <;>
    simp only [hc] <;> omega

theorem try_open_camera_sound (w : Bool) (env : CamEnv) (c : Cap) :
    (try_open_camera w env).1 = some c →
    env.opens c.1 c.2 = true ∧ env.reads c.1 c.2 = true := by
  unfold try_open_camera
  rcases hc : (scan_pairs env ((api_prefs w).flatMap
      (fun a => cam_indices.map (fun i => ((some a : Option Nat), i))))).1 with _ | c0 <;>
    simp only [hc]
  · intro h
    exact (scan_pairs_sound env _ c h).2
  · intro h
    simp only [Option.some.injEq] at h
    subst h
    exact (scan_pairs_sound env _ c0 hc).2

theorem retries_go_bound (w : Bool) (envs : Nat → CamEnv) :
    ∀ (fuel attempt : Nat),
      (retries_go w envs attempt fuel).2.2 ≤ fuel ∧
      (retries_go w envs attempt fuel).2.1 ≤ fuel * ((api_prefs w).length * 3 + 3) ∧
      ∀ c, (retries_go w envs attempt fuel).1 = some c →
        ∃ k, attempt ≤ k ∧ k < attempt + fuel ∧
          (envs k).opens c.1 c.2 = true ∧ (envs k).reads c.1 c.2 = true := by
  intro fuel
  induction fuel with
  | zero => intro attempt; simp [retries_go]
  | succ n ih =>
      intro attempt
      simp only [retries_go]
      have hcount := try_open_camera_count_le w (envs attempt)
      rcases hc : (try_open_camera w (envs attempt)).1 with _ | c <;> simp only [hc]
      · obtain ⟨ih1, ih2, ih3⟩ := ih (attempt + 1)
        refine ⟨?_, ?_, ?_⟩
        · show 1 + (retries_go w envs (attempt + 1) n).2.2 ≤ n + 1
          omega
        · show (try_open_camera w (envs attempt)).2 +
            (retries_go w envs (attempt + 1) n).2.1 ≤
            (n + 1) * ((api_prefs w).length * 3 + 3)
          calc (try_open_camera w (envs attempt)).2 +
                (retries_go w envs (attempt + 1) n).2.1
              ≤ ((api_prefs w).length * 3 + 3) + n * ((api_prefs w).length * 3 + 3) :=
                Nat.add_le_add hcount ih2
            _ = (n + 1) * ((api_prefs w).length * 3 + 3) := by ring
        · intro c hres
          obtain ⟨k, hk1, hk2, ho, hr⟩ := ih3 c hres
          exact ⟨k, by omega, by omega, ho, hr⟩
      · refine ⟨?_, ?_, ?_⟩
        · show 1 ≤ n + 1
          omega
        · show (try_open_camera w (envs attempt)).2 ≤
            (n + 1) * ((api_prefs w).length * 3 + 3)
          have h1 : ((api_prefs w).length * 3 + 3) ≤
              (n + 1) * ((api_prefs w).length * 3 + 3) := by simp
          exact le_trans hcount h1
        · intro c2 hres
          obtain rfl : c = c2 := Option.some.inj hres
          obtain ⟨ho, hr⟩ := try_open_camera_sound w (envs attempt) c hc
          exact ⟨attempt, le_refl _, by omega, ho, hr⟩

theorem cf_run_lt_max (events : List (Bool × Bool)) : cf_run events < max_failures := by
  have key : ∀ (l : List (Bool × Bool)) (cf : Nat), cf < max_failures →
      l.foldl (fun c e => (failure_step c e.1 e.2).1) cf < max_failures := by
    intro l
    induction l with
    | nil => intro cf h; simpa using h
    | cons e t ih =>
        intro cf h
        exact ih _ (failure_step_fst_lt _ _ _ h)
  simpa [cf_run] using key events 0 (by simp [max_failures])

theorem delete_local_nil (tbl : List Row) : delete_local tbl [] = tbl := by
  simp [delete_local]

theorem delete_local_deleted (tbl : List Row) (ids : List Nat) (r : Row)
    (hr : r ∈ tbl) (hnot : r ∉ delete_local tbl ids) : r.id ∈ ids := by
  by_contra hmem
  refine hnot (List.mem_filter.mpr ⟨hr, ?_⟩)
  simp [hmem]

theorem row_of_id_mem (tbl pending : List Row) (r : Row)
    (hsub : pending ⊆ tbl) (hnodup : (tbl.map Row.id).Nodup) (hr : r ∈ tbl)
    (hid : r.id ∈ pending.map Row.id) : r ∈ pending := by
  rcases List.mem_map.mp hid with ⟨r2, hr2, hid2⟩
  have heq : r2 = r := List.inj_on_of_nodup_map hnodup (hsub hr2) hr hid2
  rwa [← heq]

theorem sync_cf_no_creds (url key : String) (tbl : List Row) (mb : Nat)
    (br : Option Nat) (ir : Nat → Option Nat)
    (h : (url.isEmpty || key.isEmpty) = true) :
    sync_supabase_cf url key tbl mb br ir = tbl := by
  simp [sync_supabase_cf, h]

theorem sync_cs_no_creds (url key : String) (tbl : List Row) (mb : Nat)
    (br : Option Nat) (ir : Nat → Option Nat)
    (h : (url.isEmpty || key.isEmpty) = true) :
    sync_supabase_cs url key tbl mb br ir = tbl := by
  simp [sync_supabase_cs, h]

theorem sync_cf_all_fail (url key : String) (tbl : List Row) (mb : Nat)
    (br : Option Nat) (ir : Nat → Option Nat)
    (hbr : ∀ s, br = some s → is2xx s = false)
    (hir : ∀ i s, ir i = some s → is2xx s = false) :
    sync_supabase_cf url key tbl mb br ir = tbl := by
  have hids : ((List.range (fetch_pending tbl mb).length).filterMap (fun i =>
      match ir i with
      | some s => if is2xx s then ((fetch_pending tbl mb).get? i).map Row.id else none
      | none => none)) = [] := by
    rw [List.filterMap_eq_nil]
    intro i _
    rcases hi : ir i with _ | s
    · rfl
    · simp [hir i s hi]
  unfold sync_supabase_cf
  split
  · rfl
  · split
    · rfl
    · split
      · rename_i hcred hrows hbatch
        exfalso
        rcases hb : br with _ | s
        · rw [hb] at hbatch
          simp at hbatch
        · rw [hb] at hbatch
          simp only [Option.map_some', Option.getD_some] at hbatch
          rw [hbr s hb] at hbatch
          exact Bool.false_ne_true hbatch
      · rw [hids, delete_local_nil]

theorem sync_cs_all_fail (url key : String) (tbl : List Row) (mb : Nat)
    (br : Option Nat) (ir : Nat → Option Nat)
    (hbr : ∀ s, br = some s → is_200_or_201 s = false)
    (hir : ∀ i s, ir i = some s → is_200_or_201 s = false) :
    sync_supabase_cs url key tbl mb br ir = tbl := by
  have hids : ((List.range (fetch_pending tbl mb).length).filterMap (fun i =>
      match ir i with
      | some st => if is_200_or_201 st then ((fetch_pending tbl mb).get? i).map Row.id else none
      | none => none)) = [] := by
    rw [List.filterMap_eq_nil]
    intro i _
    rcases hi : ir i with _ | st
    · rfl
    · simp [hir i st hi]
  unfold sync_supabase_cs
  split
  · rfl
  · split
    · rfl
    · rcases br with _ | s
      · rfl
      · have hb := hbr s rfl
        simp only [hb, Bool.false_eq_true, if_false]
        split
        · rfl
        · rw [hids, delete_local_nil]

theorem sync_cf_delete_sound (url key : String) (tbl : List Row) (mb : Nat)
    (br : Option Nat) (ir : Nat → Option Nat) (r : Row)
    (hnodup : (tbl.map Row.id).Nodup) (hr : r ∈ tbl)
    (hdel : r ∉ sync_supabase_cf url key tbl mb br ir) :
    r ∈ fetch_pending tbl mb ∧
      ((∃ s, br = some s ∧ is2xx s = true) ∨
       (∃ i s, (fetch_pending tbl mb).get? i = some r ∧ ir i = some s ∧ is2xx s = true)) := by
  have hsub : fetch_pending tbl mb ⊆ tbl := List.take_subset mb tbl
  unfold sync_supabase_cf at hdel
  split at hdel
  · exact absurd hr hdel
  · split at hdel
    · exact absurd hr hdel
    · split at hdel
      · rename_i hcred hrows hbatch
        have hidmem := delete_local_deleted tbl _ r hr hdel
        have hrp : r ∈ fetch_pending tbl mb := row_of_id_mem tbl _ r hsub hnodup hr hidmem
        refine ⟨hrp, Or.inl ?_⟩
        rcases hb : br with _ | s
        · rw [hb] at hbatch
          simp at hbatch
        · rw [hb] at hbatch
          simp only [Option.map_some', Option.getD_some] at hbatch
          exact ⟨s, rfl, hbatch⟩
      · have hidmem := delete_local_deleted tbl _ r hr hdel
        rcases List.mem_filterMap.mp hidmem with ⟨i, _, hf⟩
        split at hf
        · rename_i s hi
          split at hf
          · rename_i hs
            rcases Option.map_eq_some'.mp hf with ⟨r2, hget, hid2⟩
            have hr2p : r2 ∈ fetch_pending tbl mb := List.get?_mem hget
            have heq : r2 = r :=
              List.inj_on_of_nodup_map hnodup (hsub hr2p) hr hid2
            subst heq
            exact ⟨hr2p, Or.inr ⟨i, s, hget, hi, hs⟩⟩
          · exact absurd hf (by simp)
        · exact absurd hf (by simp)

theorem sync_cs_delete_sound (url key : String) (tbl : List Row) (mb : Nat)
    (br : Option Nat) (ir : Nat → Option Nat) (r : Row)
    (hnodup : (tbl.map Row.id).Nodup) (hr : r ∈ tbl)
    (hdel : r ∉ sync_supabase_cs url key tbl mb br ir) :
    r ∈ fetch_pending tbl mb ∧
      ((∃ s, br = some s ∧ is_200_or_201 s = true) ∨
       (∃ i s, (fetch_pending tbl mb).get? i = some r ∧ ir i = some s ∧
         is_200_or_201 s = true)) := by
  have hsub : fetch_pending tbl mb ⊆ tbl := List.take_subset mb tbl
  unfold sync_supabase_cs at hdel
  split at hdel
  · exact absurd hr hdel
  · split at hdel
    · exact absurd hr hdel
    · split at hdel
      · exact absurd hr hdel
      · rename_i s
        split at hdel
        · rename_i hbatch
          have hidmem := delete_local_deleted tbl _ r hr hdel
          have hrp : r ∈ fetch_pending tbl mb := row_of_id_mem tbl _ r hsub hnodup hr hidmem
          exact ⟨hrp, Or.inl ⟨s, rfl, hbatch⟩⟩
        · split at hdel
          · exact absurd hr hdel
          · have hidmem := delete_local_deleted tbl _ r hr hdel
            rcases List.mem_filterMap.mp hidmem with ⟨i, _, hf⟩
            split at hf
            · rename_i st hi
              split at hf
              · rename_i hs
                rcases Option.map_eq_some'.mp hf with ⟨r2, hget, hid2⟩
                have hr2p : r2 ∈ fetch_pending tbl mb := List.get?_mem hget
                have heq : r2 = r :=
                  List.inj_on_of_nodup_map hnodup (hsub hr2p) hr hid2
                subst heq
                exact ⟨hr2p, Or.inr ⟨i, st, hget, hi, hs⟩⟩
              · exact absurd hf (by simp)
            · exact absurd hf (by simp)

theorem save_times_cf_chain : ∀ (trace : List (ℚ × Bool × Bool)) (last : ℚ),
    (∀ h0 ∈ (save_times_cf last trace).head?, last + cooldown_seconds ≤ h0) ∧
    (save_times_cf last trace).Chain' (fun a b => a + cooldown_seconds ≤ b) := by
  intro trace
  induction trace with
  | nil => intro last; simp [save_times_cf]
  | cons e rest ih =>
      intro last
      by_cases hg : (e.2.1 && decide (cooldown_seconds ≤ e.1 - last)) = true
      · by_cases he : e.2.2 = true
        · have hstep : save_step_cf last e.1 e.2.1 e.2.2 = (e.1, true) := by
            simp [save_step_cf, hg, he]
          have hres : save_times_cf last (e :: rest) = e.1 :: save_times_cf e.1 rest := by
            simp [save_times_cf, hstep]
          rw [hres]
          obtain ⟨ihh, ihc⟩ := ih e.1
          have hle : last + cooldown_seconds ≤ e.1 := by
            rw [Bool.and_eq_true] at hg
            have h3 := of_decide_eq_true hg.2
            linarith
          refine ⟨?_, ?_⟩
          · intro h0 hh0
            simp only [List.head?_cons, Option.mem_def, Option.some.injEq] at hh0
            subst hh0
            exact hle
          · rw [List.chain'_cons']
            exact ⟨ihh, ihc⟩
        · have hstep : save_step_cf last e.1 e.2.1 e.2.2 = (last, false) := by
            simp [save_step_cf, hg, he]
          have hres : save_times_cf last (e :: rest) = save_times_cf last rest := by
            simp [save_times_cf, hstep]
          rw [hres]
          exact ih last
      · have hstep : save_step_cf last e.1 e.2.1 e.2.2 = (last, false) := by
          simp [save_step_cf, hg]
        have hres : save_times_cf last (e :: rest) = save_times_cf last rest := by
          simp [save_times_cf, hstep]
        rw [hres]
        exact ih last

theorem save_times_cs_eq_cf : ∀ (trace : List (ℚ × Bool × Bool)) (last : ℚ),
    save_times_cs last trace = save_times_cf last trace := by
  intro trace
  induction trace with
  | nil => intro last; rfl
  | cons e rest ih =>
      intro last
      have hstep : save_step_cs last e.1 e.2.1 e.2.2 = save_step_cf last e.1 e.2.1 e.2.2 := rfl
      simp only [save_times_cs, save_times_cf, hstep]
      split
      · rw [ih]
      · rw [ih]

theorem py_max_by_area_spec : ∀ (l : List Rect) (a : Rect),
    py_max_by_area a l ∈ a :: l ∧
    (∀ r ∈ a :: l, area r ≤ area (py_max_by_area a l)) ∧
    ∃ i, (a :: l).get? i = some (py_max_by_area a l) ∧
      ∀ j s, j < i → (a :: l).get? j = some s → area s < area (py_max_by_area a l) := by
  intro l
  induction l with
  | nil =>
      intro a
      refine ⟨List.mem_singleton_self a, ?_, 0, rfl, ?_⟩
      · intro r hr
        rw [List.mem_singleton] at hr
        subst hr
        exact le_refl _
      · intro j s hj _
        omega
  | cons b l ih =>
      intro a
      have hrec : py_max_by_area a (b :: l) =
          py_max_by_area (if area a < area b then b else a) l := rfl
      by_cases hab : area a < area b
      · obtain ⟨hm, hbound, i, hget, hfirst⟩ := ih b
        rw [hrec, if_pos hab]
        have hb : area b ≤ area (py_max_by_area b l) :=
          hbound b (List.mem_cons_self _ _)
        refine ⟨List.mem_cons_of_mem a hm, ?_, i + 1, ?_, ?_⟩
        · intro r hr
          rcases List.mem_cons.mp hr with h | h
          · subst h
            omega
          · exact hbound r h
        · rw [List.get?_cons_succ]
          exact hget
        · intro j s hj hs
          rcases j with _ | j2
          · rw [List.get?_cons_zero] at hs
            injection hs with hs
            subst hs
            omega
          · rw [List.get?_cons_succ] at hs
            exact hfirst j2 s (by omega) hs
      · obtain ⟨hm, hbound, i, hget, hfirst⟩ := ih a
        rw [hrec, if_neg hab]
        have hba : area b ≤ area a := Nat.le_of_not_lt hab
        have ha : area a ≤ area (py_max_by_area a l) :=
          hbound a (List.mem_cons_self _ _)
        refine ⟨?_, ?_, ?_⟩
        · rcases List.mem_cons.mp hm with h | h
          · rw [h]
            exact List.mem_cons_self _ _
          · exact List.mem_cons_of_mem a (List.mem_cons_of_mem b h)
        · intro r hr
          rcases List.mem_cons.mp hr with h | h
          · subst h
            exact ha
          · rcases List.mem_cons.mp h with h2 | h2
            · subst h2
              omega
            · exact hbound r (List.mem_cons_of_mem a h2)
        · rcases i with _ | i2
          · rw [List.get?_cons_zero] at hget
            refine ⟨0, ?_, ?_⟩
            · rw [List.get?_cons_zero]
              exact hget
            · intro j s hj _
              omega
          · refine ⟨i2 + 2, ?_, ?_⟩
            · rw [List.get?_cons_succ] at hget
              rw [List.get?_cons_succ, List.get?_cons_succ]
              exact hget
            · intro j s hj hs
              rcases j with _ | j2
              · rw [List.get?_cons_zero] at hs
                injection hs with hs
                subst hs
                exact hfirst 0 a (by omega) List.get?_cons_zero
              · rcases j2 with _ | j3
                · rw [List.get?_cons_succ, List.get?_cons_zero] at hs
                  injection hs with hs
                  subst hs
                  have ha_lt : area a < area (py_max_by_area a l) :=
                    hfirst 0 a (by omega) List.get?_cons_zero
                  omega
                · rw [List.get?_cons_succ, List.get?_cons_succ] at hs
                  refine hfirst (j3 + 1) s (by omega) ?_
                  rw [List.get?_cons_succ]
                  exact hs

theorem py_list_max_spec : ∀ (l : List Nat) (a : Nat),
    (py_list_max a l = a ∨ py_list_max a l ∈ l) ∧
    a ≤ py_list_max a l ∧ ∀ x ∈ l, x ≤ py_list_max a l := by
  intro l
  induction l with
  | nil =>
      intro a
      exact ⟨Or.inl rfl, le_refl _, by simp⟩
  | cons b l ih =>
      intro a
      have hrec : py_list_max a (b :: l) = py_list_max (max a b) l := rfl
      obtain ⟨hmem, hle, hbound⟩ := ih (max a b)
      rw [hrec]
      refine ⟨?_, le_trans (Nat.le_max_left a b) hle, ?_⟩
      · rcases hmem with h | h
        · rw [h]
          rcases Nat.le_total a b with hab | hba
          · rw [Nat.max_eq_right hab]
            exact Or.inr (List.mem_cons_self _ _)
          · rw [Nat.max_eq_left hba]
            exact Or.inl rfl
        · exact Or.inr (List.mem_cons_of_mem _ h)
      · intro x hx
        rcases List.mem_cons.mp hx with h | h
        · rw [h]
          exact le_trans (Nat.le_max_right a b) hle
        · exact hbound x h

theorem indexOf_first_ne : ∀ (l : List Nat) (b j : Nat),
    j < l.indexOf b → ∀ x, l.get? j = some x → x ≠ b := by
  intro l
  induction l with
  | nil =>
      intro b j hj
      simp [List.indexOf] at hj
  | cons a l ih =>
      intro b j hj x hx
      rw [List.indexOf_cons] at hj
      by_cases hab : a = b
      · rw [beq_iff_eq.mpr hab] at hj
        simp at hj
      · rw [beq_eq_false_iff_ne.mpr hab] at hj
        simp only [cond_false] at hj
        rcases j with _ | j2
        · rw [List.get?_cons_zero] at hx
          injection hx with hx
          subst hx
          exact hab
        · rw [List.get?_cons_succ] at hx
          exact ih b j2 (by omega) x hx

theorem get_biggest_face_cs_spec (faces : List Rect) (r : Rect) :
    get_biggest_face_cs faces = some r →
    ∃ i, faces.get? i = some r ∧ (∀ s ∈ faces, area s ≤ area r) ∧
      ∀ j s, j < i → faces.get? j = some s → area s < area r := by
  cases faces with
  | nil =>
      intro h
      simp [get_biggest_face_cs] at h
  | cons f rest =>
      intro h
      simp only [get_biggest_face_cs, Option.some.injEq] at h
      obtain ⟨hmem, hlef, hbound⟩ := py_list_max_spec (rest.map area) (area f)
      have hmem2 : py_list_max (area f) (rest.map area) ∈ area f :: rest.map area := by
        rcases hmem with h1 | h1
        · rw [h1]
          exact List.mem_cons_self _ _
        · exact List.mem_cons_of_mem _ h1
      have hboundall : ∀ x ∈ area f :: rest.map area,
          x ≤ py_list_max (area f) (rest.map area) := by
        intro x hx
        rcases List.mem_cons.mp hx with h1 | h1
        · rw [h1]
          exact hlef
        · exact hbound x h1
      have hmap : area f :: rest.map area = (f :: rest).map area := rfl
      have hidx : (area f :: rest.map area).indexOf
          (py_list_max (area f) (rest.map area)) <
          (area f :: rest.map area).length :=
        List.indexOf_lt_length.mpr hmem2
      have hget_areas : (area f :: rest.map area).get?
          ((area f :: rest.map area).indexOf (py_list_max (area f) (rest.map area))) =
          some (py_list_max (area f) (rest.map area)) := by
        rw [List.get?_eq_get hidx]
        rw [List.indexOf_get hidx]
      have hmapped : (List.map area (f :: rest)).get?
          ((area f :: rest.map area).indexOf (py_list_max (area f) (rest.map area))) =
          some (py_list_max (area f) (rest.map area)) := hget_areas
      rw [List.get?_map] at hmapped
      rcases hv : (f :: rest).get?
          ((area f :: rest.map area).indexOf (py_list_max (area f) (rest.map area))) with _ | v
      · rw [hv] at hmapped
        simp at hmapped
      · rw [hv] at hmapped
        simp only [Option.map_some', Option.some.injEq] at hmapped
        have hr : r = v := by
          rw [List.getD_eq_get?, hv] at h
          simpa using h.symm
        subst hr
        refine ⟨(area f :: rest.map area).indexOf (py_list_max (area f) (rest.map area)),
          hv, ?_, ?_⟩
        · intro s hs
          have hsx : area s ∈ area f :: rest.map area := by
            rw [hmap]
            exact List.mem_map_of_mem area hs
          rw [hmapped]
          exact hboundall (area s) hsx
        · intro j s hj hs
          have hne := indexOf_first_ne (area f :: rest.map area)
            (py_list_max (area f) (rest.map area)) j hj (area s)
          have hgj : (area f :: rest.map area).get? j = some (area s) := by
            rw [hmap, List.get?_map, hs]
            rfl
          have hne2 := hne hgj
          have hle2 : area s ≤ py_list_max (area f) (rest.map area) := by
            refine hboundall (area s) ?_
            rw [hmap]
            exact List.mem_map_of_mem area (List.get?_mem hs)
          rw [hmapped]
          omega

theorem cooldown_trans : IsTrans ℚ (fun a b => a + cooldown_seconds ≤ b) := by
  constructor
  intro a b c hab hbc
  have h3 : (0 : ℚ) ≤ cooldown_seconds := by norm_num [cooldown_seconds]
  simp only at hab hbc ⊢
  linarith

theorem save_times_cf_pairwise (init : ℚ) (trace : List (ℚ × Bool × Bool)) :
    (save_times_cf init trace).Pairwise (fun a b => a + cooldown_seconds ≤ b) := by
  haveI := cooldown_trans
  exact List.chain'_iff_pairwise.mp (save_times_cf_chain trace init).2

end Raps

namespace Raps

/-! Claim theorems. -/

/-- Claim C8: for every existing state of the captures table and every base64
string, `save_capture` inserts exactly one new row (with the given base64
string and the date and time strings of the call) and leaves every
previously existing row unchanged; it never updates or deletes rows. -/
theorem C8_save_capture_appends_one_row (tbl : List Row) (d t b : String) :
    (save_capture tbl d t b).length = tbl.length + 1 ∧
    (save_capture tbl d t b).take tbl.length = tbl ∧
    (∀ r ∈ tbl, r ∈ save_capture tbl d t b) ∧
    ∃ nr, save_capture tbl d t b = tbl ++ [nr] ∧
      nr.date = d ∧ nr.time = t ∧ nr.image_base64 = b := by
  refine ⟨by simp [save_capture], ?_, ?_, ⟨_, rfl, rfl, rfl, rfl⟩⟩
  · exact List.take_left tbl _
  · intro r hr
    exact List.mem_append_left _ hr

theorem C8_save_capture_appends_one_row_witness :
    (⟨1, "2024-01-01", "10:00:00", "abc"⟩ : Row) ∈
      save_capture [⟨1, "2024-01-01", "10:00:00", "abc"⟩] "2024-01-02" "11:00:00" "xyz" :=
  (C8_save_capture_appends_one_row [⟨1, "2024-01-01", "10:00:00", "abc"⟩]
    "2024-01-02" "11:00:00" "xyz").2.2.1 ⟨1, "2024-01-01", "10:00:00", "abc"⟩ (by decide)

/-- Claim C5: with the default `base_delay = 5` of
`try_open_camera_with_retries`, the pre-attempt stabilization delay
`retry_delay` and the inter-attempt wait `wait_time_formula` are strictly
increasing across successive attempts. -/
theorem C5_backoff_escalates (attempt : Nat) :
    retry_delay 5 attempt < retry_delay 5 (attempt + 1) ∧
    wait_time_formula 5 attempt < wait_time_formula 5 (attempt + 1) := by
  constructor
  · rcases Nat.eq_zero_or_pos attempt with h | h
    · subst h
      norm_num [retry_delay]
    · have hne : attempt ≠ 0 := Nat.pos_iff_ne_zero.mp h
      simp only [retry_delay, hne, if_false, Nat.succ_ne_zero]
      push_cast
      linarith
  · simp only [wait_time_formula]
    push_cast
    linarith

/-- Claim C3: in the frame-reading loop of capture_faces.py `main`, the
`consecutive_failures` counter starts at 0 and always stays below
`max_failures` at the end of every iteration (so it never exceeds
`max_failures` mid-iteration): a successful read resets it to 0, a failed
read increments it by 1, and a reconnection is attempted exactly when the
incremented counter reaches `max_failures`, after which the counter is 0
whether or not the reconnection succeeded. -/
theorem C3_consecutive_failures_invariant :
    cf_run [] = 0 ∧
    (∀ events, cf_run events < max_failures) ∧
    (∀ cf recon_ok, failure_step cf true recon_ok = (0, false)) ∧
    (∀ cf recon_ok, cf + 1 < max_failures →
      failure_step cf false recon_ok = (cf + 1, false)) ∧
    (∀ cf recon_ok, max_failures ≤ cf + 1 →
      failure_step cf false recon_ok = (0, true)) ∧
    (∀ cf read_ok recon_ok, cf < max_failures →
      ((failure_step cf read_ok recon_ok).2 = true ↔
        read_ok = false ∧ cf + 1 = max_failures)) := by
  refine ⟨rfl, cf_run_lt_max, ?_, ?_, ?_, ?_⟩
  · intro cf recon_ok
    simp [failure_step]
  · intro cf recon_ok h
    simp [failure_step, Nat.not_le.mpr h]
  · intro cf recon_ok h
    rcases recon_ok with _ | _ <;> simp [failure_step, h]
  · intro cf read_ok recon_ok hlt
    rcases read_ok with _ | _
    · by_cases h : max_failures ≤ cf + 1
      · rcases recon_ok with _ | _ <;> simp [failure_step, h] <;> omega
      · simp [failure_step, h]
        omega
    · simp [failure_step]

/-- Claim C1: `sync_supabase` deletes a local row only if an HTTP POST
containing that row's data returned a success status (2xx in
capture_faces.py; 200 or 201 in camera_stream.py).  In particular, when
SUPABASE_URL or SUPABASE_ANON_KEY is empty, or when both the batch POST and
every individual POST fail (by exception or non-success status), both
implementations leave the captures table unchanged; and for every table with
distinct primary keys, any row removed was part of a successful batch POST
or had its own successful individual POST. -/
theorem C1_sync_supabase_deletes_only_on_success :
    (∀ url key tbl mb br ir, (url.isEmpty || key.isEmpty) = true →
      sync_supabase_cf url key tbl mb br ir = tbl ∧
      sync_supabase_cs url key tbl mb br ir = tbl) ∧
    (∀ url key tbl mb br ir,
      (∀ s, br = some s → is2xx s = false) →
      (∀ i s, ir i = some s → is2xx s = false) →
      sync_supabase_cf url key tbl mb br ir = tbl) ∧
    (∀ url key tbl mb br ir,
      (∀ s, br = some s → is_200_or_201 s = false) →
      (∀ i s, ir i = some s → is_200_or_201 s = false) →
      sync_supabase_cs url key tbl mb br ir = tbl) ∧
    (∀ url key tbl mb br ir r, (tbl.map Row.id).Nodup → r ∈ tbl →
      r ∉ sync_supabase_cf url key tbl mb br ir →
      r ∈ fetch_pending tbl mb ∧
        ((∃ s, br = some s ∧ is2xx s = true) ∨
         (∃ i s, (fetch_pending tbl mb).get? i = some r ∧ ir i = some s ∧
           is2xx s = true))) ∧
    (∀ url key tbl mb br ir r, (tbl.map Row.id).Nodup → r ∈ tbl →
      r ∉ sync_supabase_cs url key tbl mb br ir →
      r ∈ fetch_pending tbl mb ∧
        ((∃ s, br = some s ∧ is_200_or_201 s = true) ∨
         (∃ i s, (fetch_pending tbl mb).get? i = some r ∧ ir i = some s ∧
           is_200_or_201 s = true))) := by
  refine ⟨?_, ?_, ?_, ?_, ?_⟩
  · intro url key tbl mb br ir h
    exact ⟨sync_cf_no_creds url key tbl mb br ir h, sync_cs_no_creds url key tbl mb br ir h⟩
  · intro url key tbl mb br ir hbr hir
    exact sync_cf_all_fail url key tbl mb br ir hbr hir
  · intro url key tbl mb br ir hbr hir
    exact sync_cs_all_fail url key tbl mb br ir hbr hir
  · intro url key tbl mb br ir r hnodup hr hdel
    exact sync_cf_delete_sound url key tbl mb br ir r hnodup hr hdel
  · intro url key tbl mb br ir r hnodup hr hdel
    exact sync_cs_delete_sound url key tbl mb br ir r hnodup hr hdel

theorem C1_sync_supabase_deletes_only_on_success_witness :
    sync_supabase_cf "" "key" [Row.mk 1 "2024-01-01" "10:00:00" "img"] 20 none
        (fun _ => none) = [Row.mk 1 "2024-01-01" "10:00:00" "img"] ∧
    sync_supabase_cs "" "key" [Row.mk 1 "2024-01-01" "10:00:00" "img"] 20 none
        (fun _ => none) = [Row.mk 1 "2024-01-01" "10:00:00" "img"] :=
  C1_sync_supabase_deletes_only_on_success.1 "" "key"
    [Row.mk 1 "2024-01-01" "10:00:00" "img"] 20 none (fun _ => none) (by decide)

/-- Claim C2: for every combination of parameters, `try_open_camera_with_retries`
terminates (it is a total function of the model) after at most `max_retries`
outer attempts; each outer attempt performs at most one `VideoCapture`
construction per preferred API crossed with the indices [0, 1, 2] plus one
API-unspecified pass over the indices, so the total number of open attempts
is at most `max_retries * (api_prefs.length * 3 + 3)`; and when it returns a
handle rather than `None`, that handle was genuinely opened and read during
one of the attempts. -/
theorem C2_try_open_camera_with_retries_bounded (w : Bool) (envs : Nat → CamEnv)
    (max_retries : Nat) :
    (try_open_camera_with_retries w envs max_retries).2.2 ≤ max_retries ∧
    (∀ env, (try_open_camera w env).2 ≤ (api_prefs w).length * 3 + 3) ∧
    (try_open_camera_with_retries w envs max_retries).2.1 ≤
      max_retries * ((api_prefs w).length * 3 + 3) ∧
    (∀ c, (try_open_camera_with_retries w envs max_retries).1 = some c →
      ∃ k, k < max_retries ∧
        (envs k).opens c.1 c.2 = true ∧ (envs k).reads c.1 c.2 = true) := by
  obtain ⟨h1, h2, h3⟩ := retries_go_bound w envs max_retries 0
  refine ⟨h1, fun env => try_open_camera_count_le w env, h2, ?_⟩
  intro c hc
  obtain ⟨k, _, hk, ho, hr⟩ := h3 c hc
  exact ⟨k, by omega, ho, hr⟩

theorem C2_try_open_camera_with_retries_bounded_witness :
    ∃ k, k < 1 ∧
      ((fun _ : Nat => CamEnv.mk (fun _ _ => true) (fun _ _ => true)) k).opens
        ((some 200 : Option Nat), 0).1 ((some 200 : Option Nat), 0).2 = true ∧
      ((fun _ : Nat => CamEnv.mk (fun _ _ => true) (fun _ _ => true)) k).reads
        ((some 200 : Option Nat), 0).1 ((some 200 : Option Nat), 0).2 = true :=
  (C2_try_open_camera_with_retries_bounded false
    (fun _ => CamEnv.mk (fun _ _ => true) (fun _ _ => true)) 1).2.2.2
    ((some 200 : Option Nat), 0) rfl

theorem C3_consecutive_failures_invariant_witness :
    failure_step 9 false true = (0, true) :=
  C3_consecutive_failures_invariant.2.2.2.2.1 9 true (by decide)

/-- Claim C4: in both capture loops (capture_faces.py `main` and
camera_stream.py `capture_frames`), a detected face is saved only when the
time elapsed since `last_saved_ts` is at least `cooldown_seconds` (3.0 s),
`last_saved_ts` is updated to the save time on each save, and consequently
two successful face saves are never separated by less than
`cooldown_seconds`. -/
theorem C4_cooldown_between_saves (init : ℚ) (trace : List (ℚ × Bool × Bool)) :
    (save_times_cf init trace).Pairwise (fun a b => a + cooldown_seconds ≤ b) ∧
    (save_times_cs init trace).Pairwise (fun a b => a + cooldown_seconds ≤ b) ∧
    (∀ last t ff eo, (save_step_cf last t ff eo).2 = true →
      cooldown_seconds ≤ t - last ∧ (save_step_cf last t ff eo).1 = t) ∧
    (∀ last t ff eo, (save_step_cs last t ff eo).2 = true →
      cooldown_seconds ≤ t - last ∧ (save_step_cs last t ff eo).1 = t) := by
  have hstep : ∀ (last t : ℚ) (ff eo : Bool), (save_step_cf last t ff eo).2 = true →
      cooldown_seconds ≤ t - last ∧ (save_step_cf last t ff eo).1 = t := by
    intro last t ff eo h
    by_cases hg : (ff && decide (cooldown_seconds ≤ t - last)) = true
    · by_cases he : eo = true
      · have hdec := of_decide_eq_true (Bool.and_eq_true .. ▸ hg).2
        constructor
        · exact hdec
        · simp [save_step_cf, hg, he]
      · exfalso
        simp [save_step_cf, hg, he] at h
    · exfalso
      simp [save_step_cf, hg] at h
  refine ⟨save_times_cf_pairwise init trace, ?_, hstep, hstep⟩
  rw [save_times_cs_eq_cf]
  exact save_times_cf_pairwise init trace

theorem C4_cooldown_between_saves_witness :
    cooldown_seconds ≤ (5 : ℚ) - 0 ∧ (save_step_cf 0 5 true true).1 = 5 :=
  (C4_cooldown_between_saves 0 []).2.2.1 0 5 true true
    (by norm_num [save_step_cf, cooldown_seconds])

/-- Claim C10: for every image of height H and width W, every nonnegative
margin ratio (the rational mnum/mden), and every rectangle with
`x + w ≤ W` and `y + h ≤ H`, the slice bounds of both `crop_with_margin`
implementations satisfy `0 ≤ x1 ≤ x2 ≤ W` and `0 ≤ y1 ≤ y2 ≤ H`, and the
crop is nonempty whenever `w > 0` and `h > 0`. -/
theorem C10_crop_bounds_safe (H W : Nat) (r : Rect) (mnum mden : Nat)
    (hx : r.x + r.w ≤ W) (hy : r.y + r.h ≤ H) :
    (0 ≤ (crop_with_margin_cf H W r mnum mden).1 ∧
     (crop_with_margin_cf H W r mnum mden).1 ≤ (crop_with_margin_cf H W r mnum mden).2.2.1 ∧
     (crop_with_margin_cf H W r mnum mden).2.2.1 ≤ W ∧
     0 ≤ (crop_with_margin_cf H W r mnum mden).2.1 ∧
     (crop_with_margin_cf H W r mnum mden).2.1 ≤ (crop_with_margin_cf H W r mnum mden).2.2.2 ∧
     (crop_with_margin_cf H W r mnum mden).2.2.2 ≤ H ∧
     (0 < r.w → (crop_with_margin_cf H W r mnum mden).1 < (crop_with_margin_cf H W r mnum mden).2.2.1) ∧
     (0 < r.h → (crop_with_margin_cf H W r mnum mden).2.1 < (crop_with_margin_cf H W r mnum mden).2.2.2)) ∧
    (0 ≤ (crop_with_margin_cs H W r mnum mden).1 ∧
     (crop_with_margin_cs H W r mnum mden).1 ≤ (crop_with_margin_cs H W r mnum mden).2.2.1 ∧
     (crop_with_margin_cs H W r mnum mden).2.2.1 ≤ W ∧
     0 ≤ (crop_with_margin_cs H W r mnum mden).2.1 ∧
     (crop_with_margin_cs H W r mnum mden).2.1 ≤ (crop_with_margin_cs H W r mnum mden).2.2.2 ∧
     (crop_with_margin_cs H W r mnum mden).2.2.2 ≤ H ∧
     (0 < r.w → (crop_with_margin_cs H W r mnum mden).1 < (crop_with_margin_cs H W r mnum mden).2.2.1) ∧
     (0 < r.h → (crop_with_margin_cs H W r mnum mden).2.1 < (crop_with_margin_cs H W r mnum mden).2.2.2)) := by
  have hxW : (r.x : Int) + r.w ≤ W := by exact_mod_cast hx
  have hyH : (r.y : Int) + r.h ≤ H := by exact_mod_cast hy
  have hpad : (0 : Int) ≤ ((max r.w r.h * mnum) / mden : Nat) := Int.ofNat_nonneg _
  have hmw : (0 : Int) ≤ ((r.w * mnum) / mden : Nat) := Int.ofNat_nonneg _
  have hmh : (0 : Int) ≤ ((r.h * mnum) / mden : Nat) := Int.ofNat_nonneg _
  have hxn : (0 : Int) ≤ r.x := Int.ofNat_nonneg _
  have hyn : (0 : Int) ≤ r.y := Int.ofNat_nonneg _
  have hwn : (0 : Int) ≤ r.w := Int.ofNat_nonneg _
  have hhn : (0 : Int) ≤ r.h := Int.ofNat_nonneg _
  constructor
  · simp only [crop_with_margin_cf]
    refine ⟨by omega, by omega, by omega, by omega, by omega, by omega, ?_, ?_⟩
    · intro hw
      have : (0 : Int) < r.w := by exact_mod_cast hw
      omega
    · intro hh
      have : (0 : Int) < r.h := by exact_mod_cast hh
      omega
  · simp only [crop_with_margin_cs]
    refine ⟨by omega, by omega, by omega, by omega, by omega, by omega, ?_, ?_⟩
    · intro hw
      have : (0 : Int) < r.w := by exact_mod_cast hw
      omega
    · intro hh
      have : (0 : Int) < r.h := by exact_mod_cast hh
      omega

theorem C10_crop_bounds_safe_witness :
    0 ≤ (crop_with_margin_cf 240 320 ⟨100, 80, 50, 40⟩ 3 20).1 :=
  (C10_crop_bounds_safe 240 320 ⟨100, 80, 50, 40⟩ 3 20 (by decide) (by decide)).1.1

/-- Claim C6 is false as stated: capture_faces.py pads both axes by
`int(max(w, h) * margin_ratio)` while camera_stream.py pads each axis by its
own `int(w * margin_ratio)` / `int(h * margin_ratio)`, so for the same
margin ratio 0.1 and the non-square face rectangle (10, 10, 20, 10) inside a
100x100 image the two crops differ. -/
theorem C6_crop_equivalence_counterexample :
    crop_with_margin_cf 100 100 ⟨10, 10, 20, 10⟩ 1 10 ≠
      crop_with_margin_cs 100 100 ⟨10, 10, 20, 10⟩ 1 10 := by decide

/-- Claim C6 (amended): for every image, every margin ratio and every square
face rectangle (w = h), the two `crop_with_margin` implementations return
the same cropped region; for non-square rectangles they can differ. -/
theorem C6_crop_equivalence_square (H W x y s mnum mden : Nat) :
    crop_with_margin_cf H W ⟨x, y, s, s⟩ mnum mden =
      crop_with_margin_cs H W ⟨x, y, s, s⟩ mnum mden := by
  simp [crop_with_margin_cf, crop_with_margin_cs]

/-- Claim C9: in both implementations, `get_biggest_face` returns `None` if
and only if the face list is empty, and otherwise returns the element of the
list at the first index whose area `w * h` is maximal (so ties go to the
earliest such element). -/
theorem C9_get_biggest_face_first_maximal (faces : List Rect) :
    (get_biggest_face_cf faces = none ↔ faces = []) ∧
    (get_biggest_face_cs faces = none ↔ faces = []) ∧
    (∀ r, get_biggest_face_cf faces = some r →
      ∃ i, faces.get? i = some r ∧ (∀ s ∈ faces, area s ≤ area r) ∧
        ∀ j s, j < i → faces.get? j = some s → area s < area r) ∧
    (∀ r, get_biggest_face_cs faces = some r →
      ∃ i, faces.get? i = some r ∧ (∀ s ∈ faces, area s ≤ area r) ∧
        ∀ j s, j < i → faces.get? j = some s → area s < area r) := by
  refine ⟨?_, ?_, ?_, ?_⟩
  · cases faces <;> simp [get_biggest_face_cf]
  · cases faces <;> simp [get_biggest_face_cs]
  · intro r h
    cases faces with
    | nil => simp [get_biggest_face_cf] at h
    | cons f rest =>
        simp only [get_biggest_face_cf, Option.some.injEq] at h
        subst h
        obtain ⟨hm, hbound, i, hget, hfirst⟩ := py_max_by_area_spec rest f
        exact ⟨i, hget, hbound, hfirst⟩
  · intro r h
    exact get_biggest_face_cs_spec faces r h

theorem C9_get_biggest_face_first_maximal_witness :
    ∃ i, ([Rect.mk 0 0 2 2, Rect.mk 0 0 3 3].get? i = some (Rect.mk 0 0 3 3)) ∧
      (∀ s ∈ [Rect.mk 0 0 2 2, Rect.mk 0 0 3 3], area s ≤ area (Rect.mk 0 0 3 3)) ∧
      ∀ j s, j < i → [Rect.mk 0 0 2 2, Rect.mk 0 0 3 3].get? j = some s →
        area s < area (Rect.mk 0 0 3 3) :=
  (C9_get_biggest_face_first_maximal [Rect.mk 0 0 2 2, Rect.mk 0 0 3 3]).2.2.1
    (Rect.mk 0 0 3 3) (by decide)

/-- Claim C7: every chunk actually yielded by a `generate_frames` iteration
is a well-formed MJPEG part (header, JPEG bytes, trailer); but in the
initial state, with `latest_frame = None` and `cv2.imread` of the data-URL
path returning `None`, the code raises AttributeError (`cv2.zeros` /
`cv2.uint8` do not exist) instead of yielding a placeholder chunk, so no
chunk is produced there at all. -/
theorem C7_generate_frames_chunks (latest imread_res : Option Frame)
    (put_text : Frame → String → Frame) (ts : String) (enc : Frame → Bool × String) :
    chunk_ok (generate_frames_body latest imread_res put_text ts enc) ∧
    generate_frames_body none none put_text ts enc =
      .exn "AttributeError: module cv2 has no attribute zeros" := by
  constructor
  · rcases latest with _ | f
    · rcases imread_res with _ | f
      · simp [generate_frames_body, chunk_ok]
      · by_cases h : (enc (put_text f ts)).1
        · simp only [generate_frames_body, h, if_true]
          exact ⟨(enc (put_text f ts)).2, rfl⟩
        · simp [generate_frames_body, chunk_ok, h]
    · by_cases h : (enc (put_text f ts)).1
      · simp only [generate_frames_body, h, if_true]
        exact ⟨(enc (put_text f ts)).2, rfl⟩
      · simp [generate_frames_body, chunk_ok, h]
  · rfl

end Raps
